import Mathlib

/-!
# Verification of the tiny prefix-notation compiler (`src/index.ts`)

Shallow embedding of the pipeline `lex → parse → {evaluate, compile}`.
Strings are modelled as `List Char`; JS numbers are modelled as exact
rationals extended with the IEEE special values `Infinity`, `-Infinity`
and `NaN` (the sign of zero is collapsed, and floating-point rounding is
not modelled: all integer literals of interest are exactly representable).
JS `undefined` (which can flow into the parser's nodes through
`consume()` past the end of the token array) is modelled with `Option`.
A JS exception (e.g. the `TypeError` raised when
`operationMap[ast.val]` is not a function, or when `reduce` with no seed
is applied to an empty array) is modelled as `Option.none` in the result
of `evaluate`.
-/

/-- Strings are lists of characters. -/
abbrev Str := List Char

/-- The set of characters treated as whitespace by JavaScript's
`String.prototype.trim` (WhiteSpace ∪ LineTerminator). -/
def isJsWS (c : Char) : Bool :=
  c = ' ' || c = '\t' || c = '\n' || c = '\r' || c = '\x0b' || c = '\x0c' ||
  c = '\u00a0' || c = '\u1680' ||
  ('\u2000' ≤ c && c ≤ '\u200a') ||
  c = '\u2028' || c = '\u2029' || c = '\u202f' || c = '\u205f' ||
  c = '\u3000' || c = '\ufeff'

/-- JS `str.trim()`: drop whitespace from the front, then from the back. -/
def jsTrim (l : Str) : Str :=
  ((l.dropWhile isJsWS).reverse.dropWhile isJsWS).reverse

/-- Split a character list at every character satisfying `p`, keeping the
(possibly empty) pieces in between.  With `p := (· == ' ')` this is exactly
JS `str.split(' ')` (a single-character string separator splits at every
occurrence; adjacent separators give empty pieces; `"".split(' ') = [""]`). -/
def splitOnPred (p : Char → Bool) : Str → List Str
  | [] => [[]]
  | c :: l =>
    match splitOnPred p l with
    | [] => [[]]
    | piece :: rest => if p c then [] :: piece :: rest else (c :: piece) :: rest

/-- The lexer, transcribing
`str.split(' ').map(s => s.trim()).filter(s => s.length > 0)`. -/
def lex (str : Str) : List Str :=
  ((splitOnPred (fun c => c == ' ') str).map jsTrim).filter (fun s => s.length > 0)

/-- Numeric value of a decimal digit character. -/
def decDigitVal (c : Char) : Nat := c.toNat - '0'.toNat

/-- Hexadecimal digit recognizer (for `parseInt`'s `0x` prefix handling). -/
def isHexDigit (c : Char) : Bool :=
  c.isDigit || ('a' ≤ c && c ≤ 'f') || ('A' ≤ c && c ≤ 'F')

/-- Numeric value of a hexadecimal digit character. -/
def hexDigitVal (c : Char) : Nat :=
  if c.isDigit then c.toNat - '0'.toNat
  else if 'a' ≤ c && c ≤ 'f' then c.toNat - 'a'.toNat + 10
  else c.toNat - 'A'.toNat + 10

/-- Value of the longest digit prefix of `s`; `none` when there is no
leading digit (JS `NaN`). -/
def digitsPrefixVal (isD : Char → Bool) (val : Char → Nat) (base : Nat)
    (s : Str) : Option Nat :=
  match s.takeWhile isD with
  | [] => none
  | ds => some (ds.foldl (fun a c => a * base + val c) 0)

/-- JS `parseInt(s)` with no radix argument: skip leading whitespace, read
an optional sign, honour a `0x`/`0X` hexadecimal prefix, then take the
longest digit prefix (trailing garbage is ignored); `none` models `NaN`
(no digit found). -/
def jsParseInt (s : Str) : Option Int :=
  let body := fun (r : Str) =>
    match r with
    | '0' :: 'x' :: r' => digitsPrefixVal isHexDigit hexDigitVal 16 r'
    | '0' :: 'X' :: r' => digitsPrefixVal isHexDigit hexDigitVal 16 r'
    | r => digitsPrefixVal Char.isDigit decDigitVal 10 r
  match s.dropWhile isJsWS with
  | '-' :: r => (body r).map (fun n => -(n : Int))
  | '+' :: r => (body r).map (fun n => (n : Int))
  | r => (body r).map (fun n => (n : Int))

/-- The AST: the source's `Parser` tagged union, with variants
`NumberParser` (tag `Num`) and `OperationParser` (tag `Op`).  `num` stores
`parseInt`'s result (`none` = `NaN`); `op` stores the operator token
(`none` = JS `undefined`, which `consume()` yields past the end of the
token array) and the operand list (the source's `expression` field). -/
inductive Node where
  | num : Option Int → Node
  | op : Option Str → List Node → Node

/-- The digit test `/\d/.test(tok)`: the token contains at least one decimal digit
(`\d` is `[0-9]`). -/
def digitTest (t : Str) : Bool := t.any Char.isDigit

mutual
/-- The source's `parseExpression`, called when `peek()` returns the token
`t` (with `ts` the tokens after `t`): if `/\d/.test(t)` then `parseNum`
runs — `consume()` the token, `parseInt` it — else `parseOp` runs —
`consume()` the token as the operator, then the `while (peek())` operand
loop (`parseOpArgs`).  Besides the node, the still-unconsumed token list is
returned, together with the length bound that makes the recursion
terminate. -/
def parseExpression (t : Str) (ts : List Str) :
    Node × {r : List Str // r.length ≤ ts.length} :=
  if digitTest t then
    (.num (jsParseInt t), ⟨ts, le_rfl⟩)
  else
    let p := parseOpArgs ts
    (.op (some t) p.1, ⟨p.2.1, p.2.2⟩)
termination_by (ts.length, 1)

/-- The `while (peek()) { node.expression.push(parseExpression()) }` loop
of the source's `parseOp`: it stops when `peek()` is falsy — `undefined`
(cursor past the end) or the empty string. -/
def parseOpArgs (ts : List Str) :
    List Node × {r : List Str // r.length ≤ ts.length} :=
  match ts with
  | [] => ([], ⟨[], le_rfl⟩)
  | t :: ts' =>
    if t = [] then ([], ⟨t :: ts', le_rfl⟩)
    else
      match parseExpression t ts' with
      | (n, ⟨r, hr⟩) =>
        let q := parseOpArgs r
        (n :: q.1, ⟨q.2.1, by
          have h2 := q.2.2
          simp only [List.length_cons]
          omega⟩)
termination_by (ts.length, 0)
decreasing_by
· simp_wf
  apply Prod.Lex.left
  omega
· simp_wf
  apply Prod.Lex.left
  omega
end

/-- The node parsed by `parseExpression`. -/
def parseExprNode (t : Str) (ts : List Str) : Node := (parseExpression t ts).1

/-- The tokens left unconsumed by `parseExpression`. -/
def parseExprRest (t : Str) (ts : List Str) : List Str :=
  (parseExpression t ts).2.1

/-- The operand list built by `parseOp`'s loop. -/
def parseArgsNodes (ts : List Str) : List Node := (parseOpArgs ts).1

/-- The tokens left unconsumed by `parseOp`'s loop. -/
def parseArgsRest (ts : List Str) : List Str := (parseOpArgs ts).2.1

/-- The source's `parse`: one top-level `parseExpression()` at cursor 0.
On an empty token array `peek()` is `undefined`; `/\d/.test(undefined)`
tests the string `"undefined"` (no digit), so `parseOp` runs: `consume()`
returns `undefined` as the operator value and the `while (peek())` loop
exits at once — the result is an operation node with `undefined` operator
and no operands, not an error. -/
def parse (tokens : List Str) : Node :=
  match tokens with
  | [] => .op none []
  | t :: ts => parseExprNode t ts

theorem parseExprNode_digit (t : Str) (ts : List Str) (h : digitTest t = true) :
    parseExprNode t ts = .num (jsParseInt t) := by
  simp [parseExprNode, parseExpression, h]

theorem parseExprNode_op (t : Str) (ts : List Str) (h : digitTest t = false) :
    parseExprNode t ts = .op (some t) (parseArgsNodes ts) := by
  simp [parseExprNode, parseExpression, parseArgsNodes, h]

theorem parseExprRest_digit (t : Str) (ts : List Str) (h : digitTest t = true) :
    parseExprRest t ts = ts := by
  simp [parseExprRest, parseExpression, h]

theorem parseExprRest_op (t : Str) (ts : List Str) (h : digitTest t = false) :
    parseExprRest t ts = parseArgsRest ts := by
  simp [parseExprRest, parseExpression, parseArgsRest, h]

theorem parseArgsNodes_nil : parseArgsNodes [] = [] := by
  simp [parseArgsNodes, parseOpArgs]

theorem parseArgsRest_nil : parseArgsRest [] = [] := by
  simp [parseArgsRest, parseOpArgs]

theorem parseArgsNodes_emptyTok (ts : List Str) :
    parseArgsNodes ([] :: ts) = [] := by
  simp [parseArgsNodes, parseOpArgs]

theorem parseArgsRest_emptyTok (ts : List Str) :
    parseArgsRest ([] :: ts) = [] :: ts := by
  simp [parseArgsRest, parseOpArgs]

theorem parseArgsNodes_cons (t : Str) (ts : List Str) (h : ¬ t = []) :
    parseArgsNodes (t :: ts) =
      parseExprNode t ts :: parseArgsNodes (parseExprRest t ts) := by
  rcases hE : parseExpression t ts with ⟨n, r, hr⟩
  simp [parseArgsNodes, parseOpArgs, h, hE, parseExprNode, parseExprRest]

theorem parseArgsRest_cons (t : Str) (ts : List Str) (h : ¬ t = []) :
    parseArgsRest (t :: ts) = parseArgsRest (parseExprRest t ts) := by
  rcases hE : parseExpression t ts with ⟨n, r, hr⟩
  simp [parseArgsRest, parseOpArgs, h, hE, parseExprRest]


/-- A JS number: an exact rational, `Infinity`, `-Infinity` or `NaN`.
(The sign of zero is collapsed into `num 0`, and floating-point rounding
is not modelled.) -/
inductive JSNum where
  | num : ℚ → JSNum
  | posInf : JSNum
  | negInf : JSNum
  | nan : JSNum
deriving DecidableEq

/-- JS `a + b` on numbers. -/
def jsAdd : JSNum → JSNum → JSNum
  | .nan, _ => .nan
  | _, .nan => .nan
  | .posInf, .negInf => .nan
  | .negInf, .posInf => .nan
  | .posInf, _ => .posInf
  | _, .posInf => .posInf
  | .negInf, _ => .negInf
  | _, .negInf => .negInf
  | .num a, .num b => .num (a + b)

/-- JS `a - b` on numbers. -/
def jsSub : JSNum → JSNum → JSNum
  | .nan, _ => .nan
  | _, .nan => .nan
  | .posInf, .posInf => .nan
  | .negInf, .negInf => .nan
  | .posInf, _ => .posInf
  | .negInf, _ => .negInf
  | _, .posInf => .negInf
  | _, .negInf => .posInf
  | .num a, .num b => .num (a - b)

/-- JS `a * b` on numbers. -/
def jsMul : JSNum → JSNum → JSNum
  | .nan, _ => .nan
  | _, .nan => .nan
  | .posInf, .posInf => .posInf
  | .posInf, .negInf => .negInf
  | .negInf, .posInf => .negInf
  | .negInf, .negInf => .posInf
  | .posInf, .num b => if b = 0 then .nan else if 0 < b then .posInf else .negInf
  | .negInf, .num b => if b = 0 then .nan else if 0 < b then .negInf else .posInf
  | .num a, .posInf => if a = 0 then .nan else if 0 < a then .posInf else .negInf
  | .num a, .negInf => if a = 0 then .nan else if 0 < a then .negInf else .posInf
  | .num a, .num b => .num (a * b)

/-- JS `a / b` on numbers: a finite value divided by zero gives an
infinity (or `NaN` for `0 / 0`) — not an error. -/
def jsDiv : JSNum → JSNum → JSNum
  | .nan, _ => .nan
  | _, .nan => .nan
  | .posInf, .posInf => .nan
  | .posInf, .negInf => .nan
  | .negInf, .posInf => .nan
  | .negInf, .negInf => .nan
  | .posInf, .num b => if 0 ≤ b then .posInf else .negInf
  | .negInf, .num b => if 0 ≤ b then .negInf else .posInf
  | .num _, .posInf => .num 0
  | .num _, .negInf => .num 0
  | .num a, .num b =>
    if b = 0 then
      if 0 < a then .posInf else if a < 0 then .negInf else .nan
    else .num (a / b)

/-- The number a `NumberParser` node evaluates to: its stored `val`
(`NaN` when `parseInt` failed). -/
def numVal : Option Int → JSNum
  | some i => .num (i : ℚ)
  | none => .nan

/-- JS `Array.prototype.reduce` with no seed: `TypeError` (modelled as
`none`) on an empty array, otherwise a left fold whose initial accumulator
is the first element. -/
def jsReduce (f : JSNum → JSNum → JSNum) : List JSNum → Option JSNum
  | [] => none
  | a :: r => some (r.foldl f a)

/-- Dispatch `operationMap[v](vals)` of the evaluator: the four entries of the
dispatch table, transcribed from the source; any other operator string —
and `undefined` — finds no function, so the call raises a `TypeError`
(`none`).  (Properties inherited from `Object.prototype`, such as
`"toString"`, are not modelled.) -/
def applyOp (v : Option Str) (vals : List JSNum) : Option JSNum :=
  match v with
  | none => none
  | some s =>
    if s = "sum".toList then some (vals.foldl jsAdd (.num 0))
    else if s = "sub".toList then jsReduce jsSub vals
    else if s = "div".toList then jsReduce jsDiv vals
    else if s = "mul".toList then some (vals.foldl jsMul (.num 1))
    else none

mutual
/-- The source's `evaluate`: a number node returns its `val`; an operation
node evaluates its operands left to right (`ast.expression.map(evaluate)`)
and feeds them to the dispatch table entry for its operator.  `none`
models a thrown exception. -/
def evaluate : Node → Option JSNum
  | .num v => some (numVal v)
  | .op v es =>
    match evalListM es with
    | none => none
    | some vals => applyOp v vals

/-- Transcribes `ast.expression.map(evaluate)`, propagating a thrown exception. -/
def evalListM : List Node → Option (List JSNum)
  | [] => some []
  | n :: ns =>
    match evaluate n, evalListM ns with
    | some x, some xs => some (x :: xs)
    | _, _ => none
end

/-- The compiler's `operationMap`: operator keyword → infix symbol. -/
def opSymbol (s : Str) : Option Char :=
  if s = "sum".toList then some '+'
  else if s = "sub".toList then some '-'
  else if s = "div".toList then some '/'
  else if s = "mul".toList then some '*'
  else none

/-- The join separator `' ' + operationMap[ast.val] + ' '` of `compileOp`:
a missing table entry is `undefined`, which string concatenation coerces
to the text `"undefined"`. -/
def joinSep (v : Option Str) : Str :=
  ' ' :: (match v with
    | some s => match opSymbol s with
      | some c => [c]
      | none => "undefined".toList
    | none => "undefined".toList) ++ [' ']

/-- Rendering of `compileNum`'s result as coerced by the template literal: the decimal string
of the stored integer, or `"NaN"`. -/
def numLit : Option Int → Str
  | some i => (Int.repr i).toList
  | none => "NaN".toList

mutual
/-- The source's `compile` (its inner `_compile`): a number node becomes
its value's string form; an operation node becomes its compiled operands
joined with `joinSep` and wrapped in parentheses.  It is total — no
failure path exists. -/
def compile : Node → Str
  | .num v => numLit v
  | .op v es => '(' :: (List.intercalate (joinSep v) (compileList es) ++ [')'])

/-- Transcribes `ast.expression.map(_compile)`. -/
def compileList : List Node → List Str
  | [] => []
  | n :: ns => compile n :: compileList ns
end

/-- Modelled from the spec (§4.1, §6): the idealized tokenization into the
maximal runs of non-whitespace characters (tokens separated by one or more
whitespace characters of any kind), used as the comparison point for the
lexer claims. -/
def specLexTokens (s : Str) : List Str :=
  (splitOnPred isJsWS s).filter (fun p => !p.isEmpty)

mutual
/-- Modelled from the spec (§4.3): evaluation as the spec words it — `Sum`
is a left fold with seed 0 and addition, `Mul` a left fold with seed 1 and
multiplication, and `Sub`/`Div` are seedless left folds whose initial
accumulator is the first operand's value, combining left to right with
subtraction/division.  Outside the spec's data model (unknown operator,
empty `Sub`/`Div` operand list) the value is `NaN` junk; the refinement
theorem's hypotheses exclude those cases. -/
def evalSpec : Node → JSNum
  | .num v => numVal v
  | .op v es =>
    let vals := evalSpecList es
    if v = some "sum".toList then vals.foldl jsAdd (.num 0)
    else if v = some "sub".toList then
      match vals with
      | [] => .nan
      | a :: r => r.foldl jsSub a
    else if v = some "div".toList then
      match vals with
      | [] => .nan
      | a :: r => r.foldl jsDiv a
    else if v = some "mul".toList then vals.foldl jsMul (.num 1)
    else .nan

/-- The operand values, evaluated left to right, spec-side. -/
def evalSpecList : List Node → List JSNum
  | [] => []
  | n :: ns => evalSpec n :: evalSpecList ns
end

mutual
/-- The hypotheses of claim C6 as a boolean predicate on ASTs: every
operation node carries one of the four keywords, `sub`/`div` nodes have at
least one operand, and `div` nodes have no zero-valued operand after the
first. -/
def validEval : Node → Bool
  | .num _ => true
  | .op v es =>
    (v = some "sum".toList || v = some "sub".toList ||
     v = some "div".toList || v = some "mul".toList) &&
    validEvalList es &&
    (!(v = some "sub".toList || v = some "div".toList) || !es.isEmpty) &&
    (!(v = some "div".toList) ||
      (match evalSpecList es with
       | [] => true
       | _ :: rv => rv.all fun x => x ≠ JSNum.num 0))

/-- Conjunction of `validEval` over every node of a list. -/
def validEvalList : List Node → Bool
  | [] => true
  | n :: ns => validEval n && validEvalList ns
end

/-- Modelled from the spec (§4.4): the operator's infix symbol
(`Sum`→`+`, `Sub`→`-`, `Div`→`/`, `Mul`→`*`); junk outside the four
kinds. -/
def specSymbol (v : Option Str) : Char :=
  if v = some "sum".toList then '+'
  else if v = some "sub".toList then '-'
  else if v = some "div".toList then '/'
  else if v = some "mul".toList then '*'
  else '?'

mutual
/-- Modelled from the spec (§4.4): compile a number node to the string
form of its value, and an operation node to its recursively compiled
operands joined with the operator's infix symbol surrounded by single
spaces, wrapped in parentheses. -/
def compileSpec : Node → Str
  | .num v => numLit v
  | .op v es =>
    '(' :: (List.intercalate (' ' :: specSymbol v :: [' ']) (compileSpecList es) ++ [')'])

/-- The compiled operand strings, left to right, spec-side. -/
def compileSpecList : List Node → List Str
  | [] => []
  | n :: ns => compileSpec n :: compileSpecList ns
end

mutual
/-- The hypothesis of claim C7: every operation node of the AST carries
one of the four recognized operator keywords. -/
def validCompile : Node → Bool
  | .num _ => true
  | .op v es =>
    (v = some "sum".toList || v = some "sub".toList ||
     v = some "div".toList || v = some "mul".toList) && validCompileList es

/-- Conjunction of `validCompile` over every node of a list. -/
def validCompileList : List Node → Bool
  | [] => true
  | n :: ns => validCompile n && validCompileList ns
end

mutual
/-- Every operation node of the AST has a non-empty operand list. -/
def allOpsNonempty : Node → Bool
  | .num _ => true
  | .op _ es => !es.isEmpty && allOpsNonemptyList es

/-- Conjunction of `allOpsNonempty` over every node of a list. -/
def allOpsNonemptyList : List Node → Bool
  | [] => true
  | n :: ns => allOpsNonempty n && allOpsNonemptyList ns
end

/-- The final token of the sequence contains a decimal digit. -/
def lastHasDigit (ts : List Str) : Bool :=
  match ts.getLast? with
  | some t => digitTest t
  | none => false


/-- Structural induction for the nested AST type (the operand list is
handled through a pointwise hypothesis). -/
theorem Node.myInd (P : Node → Prop)
    (hnum : ∀ v, P (.num v))
    (hop : ∀ v es, (∀ e ∈ es, P e) → P (.op v es)) : ∀ n, P n := by
  have key : ∀ k, ∀ n : Node, sizeOf n ≤ k → P n := by
    intro k
    induction k with
    | zero => intro n h; cases n <;> simp at h
    | succ k ih =>
      intro n h
      cases n with
      | num v => exact hnum v
      | op v es =>
        refine hop v es fun e he => ih e ?_
        have := List.sizeOf_lt_of_mem he
        simp at h
        omega
  exact fun n => key (sizeOf n) n le_rfl

theorem validEvalList_iff (es : List Node) :
    validEvalList es = true ↔ ∀ e ∈ es, validEval e = true := by
  induction es with
  | nil => simp [validEvalList]
  | cons n ns ih => simp [validEvalList, ih]

theorem evalListM_eq_spec (es : List Node)
    (h : ∀ e ∈ es, evaluate e = some (evalSpec e)) :
    evalListM es = some (evalSpecList es) := by
  induction es with
  | nil => simp [evalListM, evalSpecList]
  | cons n ns ih =>
    have h1 := h n (by simp)
    have h2 : evalListM ns = some (evalSpecList ns) :=
      ih fun e he => h e (by simp [he])
    simp [evalListM, evalSpecList, h1, h2]

theorem evalSpecList_cons (n : Node) (ns : List Node) :
    evalSpecList (n :: ns) = evalSpec n :: evalSpecList ns := by
  simp [evalSpecList]


theorem applyOp_sum (vals : List JSNum) :
    applyOp (some "sum".toList) vals = some (vals.foldl jsAdd (.num 0)) := by
  simp [applyOp]

theorem applyOp_sub (vals : List JSNum) :
    applyOp (some "sub".toList) vals = jsReduce jsSub vals := by
  simp [applyOp]

theorem applyOp_div (vals : List JSNum) :
    applyOp (some "div".toList) vals = jsReduce jsDiv vals := by
  simp [applyOp]

theorem applyOp_mul (vals : List JSNum) :
    applyOp (some "mul".toList) vals = some (vals.foldl jsMul (.num 1)) := by
  simp [applyOp]

theorem validEval_op (v : Option Str) (es : List Node)
    (h : validEval (.op v es) = true) :
    (v = some "sum".toList ∨ v = some "sub".toList ∨
     v = some "div".toList ∨ v = some "mul".toList)
    ∧ validEvalList es = true
    ∧ ((v = some "sub".toList ∨ v = some "div".toList) → es ≠ []) := by
  simp only [validEval, Bool.and_eq_true, Bool.or_eq_true, Bool.not_eq_true',
    decide_eq_true_eq] at h
  obtain ⟨⟨⟨hv, hlist⟩, harity⟩, _⟩ := h
  refine ⟨by tauto, hlist, ?_⟩
  intro hvd hnil
  subst hnil
  rcases harity with h | h
  · rcases hvd with rfl | rfl <;> simp at h
  · simp [List.isEmpty] at h

/-- Claim C6 (functional_correctness): for every AST whose operation nodes
all carry one of `sum`, `sub`, `div`, `mul`, whose `sub`/`div` nodes have
at least one operand and whose `div` nodes have no zero-valued operand
after the first, `evaluate` succeeds and returns exactly the value the
spec describes (`evalSpec`): the stored value for a number node; for
`sum`, the left fold of the recursively evaluated operands (left to
right) with seed 0 and addition; for `mul`, the left fold with seed 1 and
multiplication; for `sub` (resp. `div`), the seedless left fold whose
initial accumulator is the first operand's value, combining each
subsequent value with subtraction (resp. division) in left-to-right
order. -/
theorem C6_evaluate_implements_spec_folds :
    ∀ n : Node, validEval n = true → evaluate n = some (evalSpec n) := by
  refine Node.myInd _ (fun v _ => by simp [evaluate, evalSpec]) (fun v es ih h => ?_)
  obtain ⟨hv, hlist, harity⟩ := validEval_op v es h
  have hchild : ∀ e ∈ es, evaluate e = some (evalSpec e) :=
    fun e he => ih e he ((validEvalList_iff es).1 hlist e he)
  have hm := evalListM_eq_spec es hchild
  have hnil : (v = some "sub".toList ∨ v = some "div".toList) →
      evalSpecList es ≠ [] := by
    intro hd
    have hes := harity hd
    cases es with
    | nil => exact absurd rfl hes
    | cons a r => simp [evalSpecList]
  rcases hv with rfl | rfl | rfl | rfl
  · simp [evaluate, hm, applyOp, evalSpec]
  · have hne := hnil (Or.inl rfl)
    rcases hE : evalSpecList es with _ | ⟨a, r⟩
    · exact absurd hE hne
    · simp [evaluate, hm, applyOp, evalSpec, hE, jsReduce]
  · have hne := hnil (Or.inr rfl)
    rcases hE : evalSpecList es with _ | ⟨a, r⟩
    · exact absurd hE hne
    · simp [evaluate, hm, applyOp, evalSpec, hE, jsReduce]
  · simp [evaluate, hm, applyOp, evalSpec]

/-- Witness for C6 at the AST of `"sub 2 sum 1 3 4"` (the repository's own
example program). -/
theorem C6_witness :
    validEval (Node.op (some "sub".toList)
      [Node.num (some 2),
       Node.op (some "sum".toList)
         [Node.num (some 1), Node.num (some 3), Node.num (some 4)]]) = true
    ∧ evaluate (Node.op (some "sub".toList)
      [Node.num (some 2),
       Node.op (some "sum".toList)
         [Node.num (some 1), Node.num (some 3), Node.num (some 4)]]) =
      some (evalSpec (Node.op (some "sub".toList)
        [Node.num (some 2),
         Node.op (some "sum".toList)
           [Node.num (some 1), Node.num (some 3), Node.num (some 4)]])) :=
  ⟨by simp [validEval, validEvalList, evalSpecList, evalSpec, numVal],
   C6_evaluate_implements_spec_folds _
     (by simp [validEval, validEvalList, evalSpecList, evalSpec, numVal])⟩

theorem validCompileList_iff (es : List Node) :
    validCompileList es = true ↔ ∀ e ∈ es, validCompile e = true := by
  induction es with
  | nil => simp [validCompileList]
  | cons n ns ih => simp [validCompileList, ih]

theorem compileList_eq_spec (es : List Node)
    (h : ∀ e ∈ es, compile e = compileSpec e) :
    compileList es = compileSpecList es := by
  induction es with
  | nil => simp [compileList, compileSpecList]
  | cons n ns ih =>
    have h1 := h n (by simp)
    have h2 := ih fun e he => h e (by simp [he])
    simp [compileList, compileSpecList, h1, h2]

theorem validCompile_op (v : Option Str) (es : List Node)
    (h : validCompile (.op v es) = true) :
    (v = some "sum".toList ∨ v = some "sub".toList ∨
     v = some "div".toList ∨ v = some "mul".toList)
    ∧ validCompileList es = true := by
  simp only [validCompile, Bool.and_eq_true, Bool.or_eq_true,
    decide_eq_true_eq] at h
  obtain ⟨hv, hlist⟩ := h
  exact ⟨by tauto, hlist⟩

/-- Claim C7 (functional_correctness): for every AST whose operation nodes
all carry one of the four recognized operators, `compile` returns exactly
what the spec describes (`compileSpec`): the decimal string form of the
value for a number node; for an operation node, the recursively compiled
operand strings (left to right) joined with the operator's infix symbol
(`sum`→`+`, `sub`→`-`, `div`→`/`, `mul`→`*`) surrounded by single spaces
and wrapped in parentheses.  Moreover a single-operand node compiles to a
parenthesized single value with no operator symbol, and an empty operand
list compiles to `"()"`. -/
theorem C7_compile_implements_spec :
    (∀ n : Node, validCompile n = true → compile n = compileSpec n)
    ∧ (∀ v : Option Str, compile (.op v []) = "()".toList)
    ∧ (∀ (v : Option Str) (e : Node),
        compile (.op v [e]) = '(' :: (compile e ++ [')'])) := by
  refine ⟨?_, ?_, ?_⟩
  · refine Node.myInd _ (fun v _ => by simp [compile, compileSpec])
      (fun v es ih h => ?_)
    obtain ⟨hv, hlist⟩ := validCompile_op v es h
    have hchild : ∀ e ∈ es, compile e = compileSpec e :=
      fun e he => ih e he ((validCompileList_iff es).1 hlist e he)
    have hcl := compileList_eq_spec es hchild
    rcases hv with rfl | rfl | rfl | rfl <;>
      simp [compile, compileSpec, hcl, joinSep, opSymbol, specSymbol]
  · intro v
    simp [compile, compileList, List.intercalate]
  · intro v e
    simp [compile, compileList, List.intercalate]

/-- Witness for C7 at the AST of `"div 4 0"` (the spec's Scenario 4:
compilation succeeds even though evaluation of the same AST would not
produce a finite value). -/
theorem C7_witness :
    validCompile (Node.op (some "div".toList)
      [Node.num (some 4), Node.num (some 0)]) = true
    ∧ compile (Node.op (some "div".toList)
        [Node.num (some 4), Node.num (some 0)]) =
      compileSpec (Node.op (some "div".toList)
        [Node.num (some 4), Node.num (some 0)]) :=
  ⟨by simp [validCompile, validCompileList],
   C7_compile_implements_spec.1 _ (by simp [validCompile, validCompileList])⟩

/-- Counterexample to claim C1: evaluating the AST parsed from `"div 4 0"`
does not signal a DivisionByZero failure — JS division of a positive
number by zero yields `Infinity`, so `evaluate` returns normally. -/
theorem C1_counterexample :
    evaluate (parse (lex "div 4 0".toList)) = some JSNum.posInf := by
  have hlex : lex "div 4 0".toList = [['d','i','v'], ['4'], ['0']] := by decide
  have hp : parse [['d','i','v'], ['4'], ['0']] =
      Node.op (some ['d','i','v']) [Node.num (some 4), Node.num (some 0)] := by
    simp only [parse]
    rw [parseExprNode_op _ _ (by decide)]
    rw [parseArgsNodes_cons _ _ (by decide), parseExprNode_digit _ _ (by decide),
        parseExprRest_digit _ _ (by decide)]
    rw [parseArgsNodes_cons _ _ (by decide), parseExprNode_digit _ _ (by decide),
        parseExprRest_digit _ _ (by decide)]
    rw [parseArgsNodes_nil]
    norm_num [show jsParseInt ['4'] = some 4 from by decide,
              show jsParseInt ['0'] = some 0 from by decide]
  rw [hlex, hp]
  norm_num [evaluate, evalListM, applyOp, jsReduce, numVal, jsDiv]
  decide

/-- Claim C1 as amended: for a `div` operation node whose first operand is a
positive number and whose second operand is zero, `evaluate` does not
fail; it returns the JS number `Infinity` (and, symmetrically, `0/0`
would give `NaN`): division by a zero-valued operand follows IEEE
semantics instead of signaling DivisionByZero. -/
theorem C1_amended_div_by_zero_is_infinity :
    ∀ a : ℤ, 0 < a →
      evaluate (Node.op (some "div".toList)
        [Node.num (some a), Node.num (some 0)]) = some JSNum.posInf := by
  intro a ha
  have h0 : (0:ℚ) < (a:ℚ) := by exact_mod_cast ha
  simp [evaluate, evalListM, applyOp, jsReduce, numVal, jsDiv, h0]

/-- Witness for the amended C1 at `a = 4`. -/
theorem C1_witness :
    (0:ℤ) < 4 ∧
    evaluate (Node.op (some "div".toList)
      [Node.num (some 4), Node.num (some 0)]) = some JSNum.posInf :=
  ⟨by decide, C1_amended_div_by_zero_is_infinity 4 (by decide)⟩

/-- Counterexample to claim C2: `compile` on an operation node whose
operator `"foo"` is not one of the four recognized kinds does not signal
an unknown-operator failure — it returns the string `"(1 undefined 2)"`
(the missing dispatch-table entry is `undefined`, which string
concatenation coerces into the join separator). -/
theorem C2_counterexample :
    compile (Node.op (some "foo".toList)
      [Node.num (some 1), Node.num (some 2)]) = "(1 undefined 2)".toList := by
  simp [compile, compileList, joinSep, opSymbol, numLit, List.intercalate]
  decide

/-- Claim C2 as amended: for an operation node with an unrecognized operator
string, `compile` does not fail: the symbol lookup yields `undefined`,
coerced by string concatenation into the separator `" undefined "`, so
`compile` still returns a string — e.g. `"(1 undefined 2)"` for the input
`"foo 1 2"`.  This does *not* mirror the evaluator's taxonomy: `evaluate`
on the same AST does fail (a `TypeError`, modelled as `none`). -/
theorem C2_amended_unknown_op_compiles_to_undefined :
    compile (parse (lex "foo 1 2".toList)) = "(1 undefined 2)".toList
    ∧ evaluate (parse (lex "foo 1 2".toList)) = none := by
  have hlex : lex "foo 1 2".toList = [['f','o','o'], ['1'], ['2']] := by decide
  have hp : parse [['f','o','o'], ['1'], ['2']] =
      Node.op (some ['f','o','o']) [Node.num (some 1), Node.num (some 2)] := by
    simp only [parse]
    rw [parseExprNode_op _ _ (by decide)]
    rw [parseArgsNodes_cons _ _ (by decide), parseExprNode_digit _ _ (by decide),
        parseExprRest_digit _ _ (by decide)]
    rw [parseArgsNodes_cons _ _ (by decide), parseExprNode_digit _ _ (by decide),
        parseExprRest_digit _ _ (by decide)]
    rw [parseArgsNodes_nil]
    norm_num [show jsParseInt ['1'] = some 1 from by decide,
              show jsParseInt ['2'] = some 2 from by decide]
  rw [hlex, hp]
  constructor
  · simp [compile, compileList, joinSep, opSymbol, numLit, List.intercalate]
    decide
  · simp [evaluate, evalListM, applyOp, numVal]

/-- Counterexample to claim C3: on the empty token sequence — the one case
in which the cursor is consumed past the last token (top-level
`parseExpression` with no token) — `parse` does not signal a ParseError:
it returns an AST node, namely an operation node whose operator is
`undefined` and whose operand list is empty (`/\d/.test(undefined)` tests
the string `"undefined"`, which has no digit, so `parseOp` runs and its
`while (peek())` loop exits immediately). -/
theorem C3_counterexample : parse [] = Node.op none [] := rfl

/-- Claim C3 as amended: `parse` never signals an UnexpectedEndOfInput
failure.  With the cursor past the last token, `peek()` yields
`undefined`, which fails the digit test, so the empty token sequence
(e.g. produced by lexing the empty string) parses to an operation node
with `undefined` operator and no operands; the failure surfaces only
later, when `evaluate` looks the `undefined` operator up in its dispatch
table and throws a `TypeError` (`none`) — not as a distinct parse-time
error. -/
theorem C3_amended_parse_never_fails :
    parse (lex "".toList) = Node.op none []
    ∧ evaluate (parse (lex "".toList)) = none := by
  have hlex : lex "".toList = [] := by decide
  rw [hlex]
  exact ⟨rfl, by simp [parse, evaluate, evalListM, applyOp]⟩

/-- Claim C10 (implicit, numerical): `evaluate` performs exact
(non-truncating) division, not integer division: dividing the values of
two integer literals gives the exact rational quotient whenever the
divisor is non-zero — in particular the AST parsed from `"div 3 2"`
evaluates to `3/2` (i.e. `1.5`, which is not `1`), so evaluating an AST
built only from integer literals need not give an integer. -/
theorem C10_evaluate_exact_division :
    (∀ a b : ℤ, b ≠ 0 →
      evaluate (Node.op (some "div".toList)
        [Node.num (some a), Node.num (some b)]) =
        some (JSNum.num ((a:ℚ) / (b:ℚ))))
    ∧ evaluate (parse (lex "div 3 2".toList)) = some (JSNum.num ((3:ℚ)/2))
    ∧ ((3:ℚ)/2 ≠ 1) := by
  refine ⟨?_, ?_, by norm_num⟩
  · intro a b hb
    have hb' : ¬ ((b:ℚ) = 0) := by exact_mod_cast hb
    simp [evaluate, evalListM, applyOp, jsReduce, numVal, jsDiv, hb']
  · have hlex : lex "div 3 2".toList = [['d','i','v'], ['3'], ['2']] := by decide
    have hp : parse [['d','i','v'], ['3'], ['2']] =
        Node.op (some ['d','i','v']) [Node.num (some 3), Node.num (some 2)] := by
      simp only [parse]
      rw [parseExprNode_op _ _ (by decide)]
      rw [parseArgsNodes_cons _ _ (by decide), parseExprNode_digit _ _ (by decide),
          parseExprRest_digit _ _ (by decide)]
      rw [parseArgsNodes_cons _ _ (by decide), parseExprNode_digit _ _ (by decide),
          parseExprRest_digit _ _ (by decide)]
      rw [parseArgsNodes_nil]
      norm_num [show jsParseInt ['3'] = some 3 from by decide,
                show jsParseInt ['2'] = some 2 from by decide]
    rw [hlex, hp]
    norm_num [evaluate, evalListM, applyOp, jsReduce, numVal, jsDiv]
    rw [if_neg (by decide), if_neg (by decide)]

/-- Witness for C10 at `a = 3`, `b = 2`. -/
theorem C10_witness :
    (2:ℤ) ≠ 0 ∧
    evaluate (Node.op (some "div".toList)
      [Node.num (some 3), Node.num (some 2)]) = some (JSNum.num ((3:ℚ)/2)) :=
  ⟨by decide, C10_evaluate_exact_division.1 3 2 (by decide)⟩

/-- Counterexample to claim C4: the token `"x1"` does not match `^[0-9]+$`
(it is not all decimal digits), yet `parseExpression` delegates it to
`parseNum` because `/\d/` only asks for a digit *somewhere* in the token —
and the resulting NumberNode carries `parseInt("x1") = NaN`, not a valid
integer. -/
theorem C4_counterexample :
    parse [['x','1']] = Node.num none
    ∧ (['x','1'].all Char.isDigit) = false := by
  constructor
  · simp only [parse]
    rw [parseExprNode_digit _ _ (by decide)]
    norm_num [show jsParseInt ['x','1'] = none from by decide]
  · decide

/-- Claim C4 as amended: on every call during `parse`, `parseExpression`
delegates to `parseNum` exactly when the next token *contains* at least
one decimal digit (`/\d/.test`), and otherwise delegates to
`parseOperation`; when it does delegate to `parseNum`, the resulting
NumberNode carries JS `parseInt` of the token — which may be `NaN`
(e.g. `"x1"`) or only the value of a digit prefix (e.g. `"1a"` gives 1) —
rather than always a valid integer parsed from an all-digits token. -/
theorem C4_amended_delegation_on_digit_anywhere :
    ∀ (t : Str) (ts : List Str),
      ((∃ v, parseExprNode t ts = Node.num v) ↔ digitTest t = true)
      ∧ (digitTest t = true → parseExprNode t ts = Node.num (jsParseInt t)) := by
  intro t ts
  cases h : digitTest t
  · rw [parseExprNode_op t ts h]
    simp
  · rw [parseExprNode_digit t ts h]
    simp

/-- Witness for the amended C4 at the token `"1a"` (contains a digit, so
it is delegated to `parseNum`, whose `parseInt` keeps only the digit
prefix). -/
theorem C4_witness :
    digitTest ['1','a'] = true
    ∧ parseExprNode ['1','a'] [] = Node.num (jsParseInt ['1','a']) :=
  ⟨by decide, (C4_amended_delegation_on_digit_anywhere ['1','a'] []).2 (by decide)⟩

theorem parse_rest_suffix :
    ∀ (k : Nat) (ts : List Str), ts.length ≤ k →
      (parseArgsRest ts <:+ ts) ∧ (∀ t, parseExprRest t ts <:+ ts) := by
  intro k
  induction k with
  | zero =>
    intro ts h
    have hts : ts = [] := by
      cases ts with
      | nil => rfl
      | cons a l => simp at h
    subst hts
    refine ⟨by rw [parseArgsRest_nil], fun t => ?_⟩
    cases hd : digitTest t
    · rw [parseExprRest_op _ _ hd, parseArgsRest_nil]
    · rw [parseExprRest_digit _ _ hd]
  | succ k ih =>
    intro ts h
    have hargs : parseArgsRest ts <:+ ts := by
      cases ts with
      | nil => rw [parseArgsRest_nil]
      | cons t ts' =>
        by_cases ht : t = []
        · subst ht
          rw [parseArgsRest_emptyTok]
        · rw [parseArgsRest_cons t ts' ht]
          have hlen : ts'.length ≤ k := by
            simp only [List.length_cons] at h
            omega
          have h1 : parseExprRest t ts' <:+ ts' := (ih ts' hlen).2 t
          have h2 : parseArgsRest (parseExprRest t ts') <:+ parseExprRest t ts' :=
            (ih _ (le_trans h1.length_le hlen)).1
          exact ((h2.trans h1).trans (List.suffix_cons t ts'))
    refine ⟨hargs, fun t => ?_⟩
    cases hd : digitTest t
    · rw [parseExprRest_op _ _ hd]
      exact hargs
    · rw [parseExprRest_digit _ _ hd]

theorem lastHasDigit_of_suffix (r ts : List Str) (hs : r <:+ ts) (hne : r ≠ [])
    (h : lastHasDigit ts = true) : lastHasDigit r = true := by
  obtain ⟨pre, rfl⟩ := hs
  unfold lastHasDigit at h ⊢
  rwa [List.getLast?_append_of_ne_nil pre hne] at h


theorem parse_nonempty_aux :
    ∀ (k : Nat) (ts : List Str), ts.length ≤ k →
      (ts ≠ [] → (∀ u ∈ ts, u ≠ []) → lastHasDigit ts = true →
        parseArgsNodes ts ≠ [] ∧ allOpsNonemptyList (parseArgsNodes ts) = true)
      ∧ (∀ t, (∀ u ∈ t :: ts, u ≠ []) → lastHasDigit (t :: ts) = true →
        allOpsNonempty (parseExprNode t ts) = true) := by
  intro k
  induction k with
  | zero =>
    intro ts h
    have hts : ts = [] := by
      cases ts with
      | nil => rfl
      | cons a l => simp at h
    subst hts
    refine ⟨fun hne _ _ => absurd rfl hne, fun t _ hlast => ?_⟩
    cases hd : digitTest t
    · exfalso
      have : lastHasDigit [t] = digitTest t := by
        simp [lastHasDigit]
      rw [this, hd] at hlast
      exact Bool.false_ne_true hlast
    · rw [parseExprNode_digit _ _ hd]
      simp [allOpsNonempty]
  | succ k ih =>
    intro ts h
    have hQ : ts ≠ [] → (∀ u ∈ ts, u ≠ []) → lastHasDigit ts = true →
        parseArgsNodes ts ≠ [] ∧ allOpsNonemptyList (parseArgsNodes ts) = true := by
      intro hne hu hlast
      cases ts with
      | nil => exact absurd rfl hne
      | cons t ts' =>
        have ht : t ≠ [] := hu t (by simp)
        rw [parseArgsNodes_cons t ts' ht]
        have hlen : ts'.length ≤ k := by
          simp only [List.length_cons] at h
          omega
        have hnode : allOpsNonempty (parseExprNode t ts') = true :=
          (ih ts' hlen).2 t hu hlast
        have hrest : allOpsNonemptyList (parseArgsNodes (parseExprRest t ts')) = true := by
          have hsuf : parseExprRest t ts' <:+ ts' :=
            (parse_rest_suffix ts'.length ts' le_rfl).2 t
          cases hr : parseExprRest t ts' with
          | nil => rw [parseArgsNodes_nil]; rfl
          | cons r rs =>
            rw [← hr]
            have hsuf' : parseExprRest t ts' <:+ t :: ts' :=
              hsuf.trans (List.suffix_cons t ts')
            have hrne : parseExprRest t ts' ≠ [] := by rw [hr]; simp
            have hulist : ∀ u ∈ parseExprRest t ts', u ≠ [] :=
              fun u hu' => hu u (hsuf'.subset hu')
            have hlast' : lastHasDigit (parseExprRest t ts') = true :=
              lastHasDigit_of_suffix _ _ hsuf' hrne hlast
            have hlen' : (parseExprRest t ts').length ≤ k :=
              le_trans hsuf.length_le hlen
            exact ((ih _ hlen').1 hrne hulist hlast').2
        refine ⟨by simp, ?_⟩
        simp [allOpsNonemptyList, hnode, hrest]
    refine ⟨hQ, fun t hu hlast => ?_⟩
    cases hd : digitTest t
    · have hne : ts ≠ [] := by
        intro hnil
        subst hnil
        have : lastHasDigit [t] = digitTest t := by simp [lastHasDigit]
        rw [this, hd] at hlast
        exact Bool.false_ne_true hlast
      rw [parseExprNode_op _ _ hd]
      have hlast' : lastHasDigit ts = true :=
        lastHasDigit_of_suffix ts (t :: ts) (List.suffix_cons t ts) hne hlast
      have hu' : ∀ u ∈ ts, u ≠ [] := fun u h' => hu u (by simp [h'])
      obtain ⟨hne', hall⟩ := hQ hne hu' hlast'
      simp [allOpsNonempty, hne', hall]
    · rw [parseExprNode_digit _ _ hd]
      simp [allOpsNonempty]


/-- Counterexample to claim C5: parsing the single-token sequence `["sub"]`
succeeds and returns an OperationNode whose operand list is *empty* (the
operator was the last token, so the `while (peek())` loop body never
ran). -/
theorem C5_counterexample :
    parse [['s','u','b']] = Node.op (some ['s','u','b']) []
    ∧ allOpsNonempty (parse [['s','u','b']]) = false := by
  have hp : parse [['s','u','b']] = Node.op (some ['s','u','b']) [] := by
    simp only [parse]
    rw [parseExprNode_op _ _ (by decide), parseArgsNodes_nil]
  exact ⟨hp, by rw [hp]; simp [allOpsNonempty, allOpsNonemptyList]⟩

/-- Claim C5 as amended: for every token sequence whose tokens are all
non-empty (as the lexer guarantees) and whose *final token contains a
digit* (so that the parse cannot end on a just-consumed operator
keyword), every OperationNode in the AST returned by a successful parse
has a non-empty operand list.  Without that proviso the property fails:
an operator keyword as the final token yields an OperationNode with an
empty operand list. -/
theorem C5_amended_operands_nonempty :
    ∀ ts : List Str, ts ≠ [] → (∀ u ∈ ts, u ≠ []) →
      lastHasDigit ts = true → allOpsNonempty (parse ts) = true := by
  intro ts hne hu hlast
  cases ts with
  | nil => exact absurd rfl hne
  | cons t ts' =>
    simp only [parse]
    exact (parse_nonempty_aux ts'.length ts' le_rfl).2 t hu hlast

/-- Witness for the amended C5 at the token sequence `["sub", "1"]`. -/
theorem C5_witness :
    ([['s','u','b'], ['1']] : List Str) ≠ []
    ∧ (∀ u ∈ ([['s','u','b'], ['1']] : List Str), u ≠ [])
    ∧ lastHasDigit [['s','u','b'], ['1']] = true
    ∧ allOpsNonempty (parse [['s','u','b'], ['1']]) = true :=
  ⟨by decide, by decide, by decide,
   C5_amended_operands_nonempty [['s','u','b'], ['1']]
     (by decide) (by decide) (by decide)⟩

theorem splitOnPred_ne_nil (p : Char → Bool) (s : Str) : splitOnPred p s ≠ [] := by
  cases s with
  | nil => simp [splitOnPred]
  | cons c l =>
    rw [splitOnPred]
    rcases h : splitOnPred p l with _ | ⟨piece, rest⟩
    · simp
    · by_cases hc : p c = true <;> simp [hc]

theorem splitOnPred_chars (p : Char → Bool) (s : Str) :
    ∀ piece ∈ splitOnPred p s, ∀ c ∈ piece, c ∈ s ∧ p c = false := by
  induction s with
  | nil =>
    intro piece hp c hc
    simp [splitOnPred] at hp
    subst hp
    simp at hc
  | cons a l ih =>
    intro piece hp c hc
    rw [splitOnPred] at hp
    cases h : splitOnPred p l with
    | nil => exact absurd h (splitOnPred_ne_nil p l)
    | cons q qs =>
      rw [h] at hp
      cases ha : p a with
      | true =>
        simp only [ha, if_true, List.mem_cons] at hp
        rcases hp with rfl | rfl | hp
        · simp at hc
        · have := ih piece (by rw [h]; simp) c hc
          exact ⟨by simp [this.1], this.2⟩
        · have := ih piece (by rw [h]; simp [hp]) c hc
          exact ⟨by simp [this.1], this.2⟩
      | false =>
        simp only [ha, Bool.false_eq_true, if_false, List.mem_cons] at hp
        rcases hp with rfl | hp
        · rcases List.mem_cons.1 hc with rfl | hc'
          · exact ⟨by simp, ha⟩
          · have := ih q (by rw [h]; simp) c hc'
            exact ⟨by simp [this.1], this.2⟩
        · have := ih piece (by rw [h]; simp [hp]) c hc
          exact ⟨by simp [this.1], this.2⟩

theorem splitOnPred_congr (p q : Char → Bool) (s : Str)
    (h : ∀ c ∈ s, p c = q c) : splitOnPred p s = splitOnPred q s := by
  induction s with
  | nil => rfl
  | cons a l ih =>
    have hl : splitOnPred p l = splitOnPred q l :=
      ih fun c hc => h c (by simp [hc])
    rw [splitOnPred, splitOnPred, hl, h a (by simp)]

theorem dropWhile_eq_self_of_head (p : Char → Bool) (l : Str)
    (h : ∀ c ∈ l.head?, p c = false) : l.dropWhile p = l := by
  cases l with
  | nil => rfl
  | cons a t =>
    have := h a (by simp)
    simp [List.dropWhile_cons, this]

theorem head_dropWhile_false (p : Char → Bool) (l : Str) :
    ∀ c ∈ (l.dropWhile p).head?, p c = false := by
  induction l with
  | nil => simp
  | cons a t ih =>
    rw [List.dropWhile_cons]
    cases h : p a
    · simp [h]
    · simpa [h] using ih

theorem mem_jsTrim (l : Str) (c : Char) (h : c ∈ jsTrim l) : c ∈ l := by
  unfold jsTrim at h
  rw [List.mem_reverse] at h
  have h1 := (List.dropWhile_suffix isJsWS).subset h
  rw [List.mem_reverse] at h1
  exact (List.dropWhile_suffix isJsWS).subset h1

theorem jsTrim_eq_self (l : Str) (h : ∀ c ∈ l, isJsWS c = false) : jsTrim l = l := by
  unfold jsTrim
  rw [dropWhile_eq_self_of_head _ _ fun c hc => h c (List.mem_of_mem_head? hc)]
  rw [dropWhile_eq_self_of_head _ _ fun c hc =>
    h c (by rw [← List.mem_reverse]; exact List.mem_of_mem_head? hc)]
  exact List.reverse_reverse l

theorem jsTrim_all_ws (l : Str) (h : ∀ c ∈ l, isJsWS c = true) : jsTrim l = [] := by
  unfold jsTrim
  have h1 : l.dropWhile isJsWS = [] :=
    List.dropWhile_eq_nil_iff.2 fun x hx => h x hx
  rw [h1]
  rfl


theorem getLast?_of_suffix {r l : Str} (hs : r <:+ l) (hne : r ≠ []) :
    l.getLast? = r.getLast? := by
  obtain ⟨pre, rfl⟩ := hs
  exact List.getLast?_append_of_ne_nil pre hne

theorem jsTrim_idem (l : Str) : jsTrim (jsTrim l) = jsTrim l := by
  by_cases hB : (l.dropWhile isJsWS).reverse.dropWhile isJsWS = []
  · unfold jsTrim
    rw [hB]
    rfl
  · unfold jsTrim
    have fact2 : ((l.dropWhile isJsWS).reverse.dropWhile isJsWS).getLast? =
        (l.dropWhile isJsWS).head? := by
      rw [← getLast?_of_suffix (List.dropWhile_suffix isJsWS) hB,
        List.getLast?_reverse]
    have hstep1 : (((l.dropWhile isJsWS).reverse.dropWhile isJsWS).reverse).dropWhile
        isJsWS = ((l.dropWhile isJsWS).reverse.dropWhile isJsWS).reverse := by
      apply dropWhile_eq_self_of_head
      intro c hc
      rw [List.head?_reverse, fact2] at hc
      exact head_dropWhile_false _ _ c hc
    rw [hstep1, List.reverse_reverse,
      dropWhile_eq_self_of_head _ _ (head_dropWhile_false _ _)]

/-- JS `tokens.join(" ")`. -/
def joinSpace : List Str → Str
  | [] => []
  | [t] => t
  | t :: ts => t ++ ' ' :: joinSpace ts

theorem splitOnPred_sep_free (p : Char → Bool) (a : Str)
    (h : ∀ c ∈ a, p c = false) : splitOnPred p a = [a] := by
  induction a with
  | nil => rfl
  | cons c t ih =>
    rw [splitOnPred, ih fun x hx => h x (by simp [hx]), h c (by simp)]
    simp

theorem splitOnPred_append (p : Char → Bool) (a : Str) (x : Char) (l : Str)
    (ha : ∀ c ∈ a, p c = false) (hx : p x = true) :
    splitOnPred p (a ++ x :: l) = a :: splitOnPred p l := by
  induction a with
  | nil =>
    simp only [List.nil_append]
    rw [splitOnPred]
    cases h : splitOnPred p l with
    | nil => exact absurd h (splitOnPred_ne_nil p l)
    | cons q qs => simp [hx]
  | cons c t ih =>
    have ih' := ih fun y hy => ha y (by simp [hy])
    rw [List.cons_append, splitOnPred, ih', ha c (by simp)]
    simp

theorem lex_join_of_tokens :
    ∀ ts : List Str,
      (∀ t ∈ ts, t ≠ [] ∧ (∀ c ∈ t, (c == ' ') = false) ∧ jsTrim t = t) →
      lex (joinSpace ts) = ts := by
  intro ts
  induction ts with
  | nil => intro _; rfl
  | cons t ts ih =>
    intro h
    obtain ⟨ht1, ht2, ht3⟩ := h t (by simp)
    have htlen : t.length > 0 := by
      cases t with
      | nil => exact absurd rfl ht1
      | cons _ _ => simp
    cases ts with
    | nil =>
      show lex t = [t]
      unfold lex
      rw [splitOnPred_sep_free _ _ ht2]
      simp only [List.map_cons, List.map_nil, List.filter_cons, ht3]
      rw [if_pos (by simpa using htlen)]
      rfl
    | cons u us =>
      show lex (t ++ ' ' :: joinSpace (u :: us)) = t :: u :: us
      unfold lex
      rw [splitOnPred_append _ _ _ _ ht2 (by decide)]
      have ihr := ih fun x hx => h x (by simp [hx])
      unfold lex at ihr
      simp only [List.map_cons, List.filter_cons, ht3]
      rw [if_pos (by simpa using htlen)]
      rw [ihr]

/-- Claim C9 (algebraic_relational): lexing is idempotent — re-lexing the
result of joining `lex s`'s tokens with single spaces gives back exactly
`lex s`, for every input string. -/
theorem C9_lex_idempotent (s : Str) : lex (joinSpace (lex s)) = lex s := by
  apply lex_join_of_tokens
  intro t ht
  unfold lex at ht
  rw [List.mem_filter] at ht
  obtain ⟨hmem, hlen⟩ := ht
  rw [List.mem_map] at hmem
  obtain ⟨piece, hpiece, rfl⟩ := hmem
  refine ⟨?_, ?_, jsTrim_idem piece⟩
  · intro hnil
    rw [hnil] at hlen
    simp at hlen
  · intro c hc
    exact (splitOnPred_chars _ s piece hpiece c (mem_jsTrim piece c hc)).2

/-- Counterexample to claim C8: a tab does *not* separate tokens — the
lexer splits on the space character only (`str.split(' ')`), so
`lex "a\tb"` is the single token `"a\tb"`, not the two maximal
non-whitespace runs `["a", "b"]` that the claim demands. -/
theorem C8_counterexample :
    lex ['a','\t','b'] = [['a','\t','b']]
    ∧ specLexTokens ['a','\t','b'] = [['a'], ['b']] := by decide

/-- Claim C8 as amended: the lexer splits the input on the space character
only, trims each piece and discards empty pieces; hence (i) on every
input whose whitespace characters are all ordinary spaces it returns
exactly the maximal runs of non-whitespace characters in left-to-right
order, and (ii) lexing never fails and an empty or all-whitespace input
(of any whitespace kind) still yields the empty sequence.  Runs separated
only by non-space whitespace such as tabs, however, are *not* split
apart. -/
theorem C8_amended_lex_splits_on_spaces :
    ∀ s : Str,
      ((∀ c ∈ s, isJsWS c = true → c = ' ') → lex s = specLexTokens s)
      ∧ ((∀ c ∈ s, isJsWS c = true) → lex s = []) := by
  intro s
  constructor
  · intro h
    unfold lex specLexTokens
    have hcong : splitOnPred (fun c => c == ' ') s = splitOnPred isJsWS s := by
      apply splitOnPred_congr
      intro c hc
      by_cases hcs : c = ' '
      · subst hcs
        decide
      · have h1 : (c == ' ') = false := by simp [hcs]
        have h2 : isJsWS c = false := by
          cases hw : isJsWS c
          · rfl
          · exact absurd (h c hc hw) hcs
        rw [h1, h2]
    have hmap : ∀ piece ∈ splitOnPred (fun c => c == ' ') s, jsTrim piece = piece := by
      intro piece hp
      apply jsTrim_eq_self
      intro c hc
      have hchars := splitOnPred_chars _ s piece hp c hc
      cases hw : isJsWS c
      · rfl
      · have hceq := h c hchars.1 hw
        subst hceq
        exact absurd hchars.2 (by decide)
    rw [show (splitOnPred (fun c => c == ' ') s).map jsTrim =
          (splitOnPred (fun c => c == ' ') s).map id from List.map_congr_left hmap,
        List.map_id, hcong]
    apply List.filter_congr
    intro piece _
    cases piece <;> simp
  · intro h
    unfold lex
    rw [List.filter_eq_nil_iff]
    intro a ha
    rw [List.mem_map] at ha
    obtain ⟨piece, hp, rfl⟩ := ha
    have : jsTrim piece = [] :=
      jsTrim_all_ws piece fun c hc => h c (splitOnPred_chars _ s piece hp c hc).1
    simp [this]

/-- Witness for the amended C8: `"a b"` (space-separated, part (i)) and
`"\t"` (all-whitespace, part (ii)). -/
theorem C8_witness :
    lex ['a',' ','b'] = specLexTokens ['a',' ','b'] ∧ lex ['\t'] = [] :=
  ⟨(C8_amended_lex_splits_on_spaces ['a',' ','b']).1 (by decide),
   (C8_amended_lex_splits_on_spaces ['\t']).2 (by decide)⟩
